import Mathlib

/-!
Verification of the `mbooks` order-book aggregator.

Shallow embedding of the repository's domain model (`src/types.rs`), the
merger (`src/merger.rs`) and the adapter frame decoders (`src/binance.rs`,
`src/bitstamp.rs`).

Modelling conventions:
* Rust `f64` prices and quantities are modelled as `ℚ`; the `f64::NAN`
  produced by `Summary::spread` is modelled as `Option.none` of an
  `Option ℚ` result.
* Rust `String` is Lean `String`; `str::to_lowercase` is modelled as
  per-character `Char.toLower` (the inputs of interest are ASCII).
* The fallible conversions return `Except`; the unchecked `Vec` indexing of
  the adapter decoders is modelled by a dedicated `indexPanic` outcome.
-/

namespace Mbooks

/-- Error enumeration of `src/types.rs` (`WebsocketError`).  The Rust
`ParseError` variant carries an opaque `ParseFloatError`; we model it as
carrying the offending text. -/
inductive WebsocketError where
  | InvalidAsset (text : String)
  | InvalidPair (text : String)
  | ParseError (text : String)
deriving DecidableEq, Repr

/-- The closed asset enumeration of `src/types.rs` (`Asset`). -/
inductive Asset where
  | ADA | BTC | DOT | ETH | LINK | LTC | SOL | USD | USDC | USDT
deriving DecidableEq, Repr

/-- `Asset::try_from(&str)` of `src/types.rs` lines 40–58: a match on the
exact (lowercase) code strings, else `InvalidAsset` carrying the input. -/
def Asset.tryFrom (value : String) : Except WebsocketError Asset :=
  if value = "ada" then .ok .ADA
  else if value = "btc" then .ok .BTC
  else if value = "dot" then .ok .DOT
  else if value = "eth" then .ok .ETH
  else if value = "link" then .ok .LINK
  else if value = "ltc" then .ok .LTC
  else if value = "sol" then .ok .SOL
  else if value = "usd" then .ok .USD
  else if value = "usdt" then .ok .USDT
  else if value = "usdc" then .ok .USDC
  else .error (.InvalidAsset value)

/-- The ten textual codes accepted by `Asset.tryFrom`. -/
def assetCodes : List String :=
  ["ada", "btc", "dot", "eth", "link", "ltc", "sol", "usd", "usdt", "usdc"]

/-- The lowercase textual code of each asset: exactly the strings accepted
by `Asset.tryFrom`. -/
def lowercaseCode : Asset → String
  | .ADA => "ada"
  | .BTC => "btc"
  | .DOT => "dot"
  | .ETH => "eth"
  | .LINK => "link"
  | .LTC => "ltc"
  | .SOL => "sol"
  | .USD => "usd"
  | .USDC => "usdc"
  | .USDT => "usdt"

/-- `Symbol` of `src/types.rs`: a base/quote pair of assets. -/
structure Symbol where
  base : Asset
  quote : Asset
deriving DecidableEq, Repr

/-- Rust `value.find('/')` followed by slicing `value[..pos]` /
`value[pos+1..]`, over the character list: split at the first `'/'`. -/
def splitAtSlash : List Char → Option (List Char × List Char)
  | [] => none
  | c :: rest =>
    if c = '/' then some ([], rest)
    else
      match splitAtSlash rest with
      | none => none
      | some (pre, post) => some (c :: pre, post)

/-- `value.to_lowercase()` as a character list (ASCII lowering). -/
def lowerChars (value : String) : List Char :=
  value.toList.map Char.toLower

/-- `Symbol::try_from(String)` of `src/types.rs` lines 72–85: lowercase the
input, split at the first `'/'` (missing slash fails with `InvalidPair`
carrying the lowercased text), then parse both sides with `Asset.tryFrom`,
propagating its errors with `?`. -/
def Symbol.tryFrom (value : String) : Except WebsocketError Symbol :=
  match splitAtSlash (lowerChars value) with
  | none => .error (.InvalidPair (String.mk (lowerChars value)))
  | some (pre, post) => do
    let b ← Asset.tryFrom (String.mk pre)
    let q ← Asset.tryFrom (String.mk post)
    pure ⟨b, q⟩

/-- `Level` of `src/types.rs`: one price level attributed to an exchange. -/
structure Level where
  exchange : String
  price : ℚ
  quantity : ℚ
deriving DecidableEq, Repr

/-- `Summary` of `src/types.rs`: the internal summary, bids and asks. -/
structure Summary where
  bids : List Level
  asks : List Level
deriving DecidableEq, Repr

/-- `Summary::spread` of `src/types.rs` lines 113–121: `NaN` (modelled as
`none`) when either side is empty, otherwise `asks[0].price − bids[0].price`. -/
def Summary.spread (s : Summary) : Option ℚ :=
  match s.asks, s.bids with
  | a :: _, b :: _ => some (a.price - b.price)
  | _, _ => none

/-!  ## The merger (`src/merger.rs`)  -/

/-- The three index loops of `OrderbookMerger::process_summary_asks_bids`
(`src/merger.rs` lines 159–192) as one recursion.  First argument is the
existing book side (`asks_bids`), second the incoming side
(`summary_asks_bids`).  Existing levels whose exchange equals the incoming
exchange are skipped ("outdated information"); otherwise an existing level
is emitted while `existing.price * multiplier < incoming.price * multiplier`,
the incoming level on ties or when larger; each tail loop drains what is
left (still skipping the incoming exchange on the existing side). -/
def mergeLoop (exchange : String) (multiplier : ℚ) :
    List Level → List Level → List Level
  | [], summaryRest => summaryRest
  | a :: rest, [] =>
    if a.exchange = exchange then mergeLoop exchange multiplier rest []
    else a :: mergeLoop exchange multiplier rest []
  | a :: rest, s :: srest =>
    if a.exchange = exchange then mergeLoop exchange multiplier rest (s :: srest)
    else if a.price * multiplier < s.price * multiplier then
      a :: mergeLoop exchange multiplier rest (s :: srest)
    else
      s :: mergeLoop exchange multiplier (a :: rest) srest
termination_by es is => es.length + is.length

/-- `OrderbookMerger::process_summary_asks_bids` (`src/merger.rs` lines
130–195): empty incoming side returns the existing side unchanged and no
exchange; otherwise the exchange is read from the first incoming level and
the two sorted lists are merged linearly. -/
def processSummaryAsksBids (summaryAsksBids asksBids : List Level)
    (multiplier : ℚ) : List Level × Option String :=
  match summaryAsksBids with
  | [] => (asksBids, none)
  | first :: _ =>
    (mergeLoop first.exchange multiplier asksBids summaryAsksBids,
     some first.exchange)

/-- `OrderbookMerger::process_summary` (`src/merger.rs` lines 100–128): if
both incoming sides are empty return the state unchanged, otherwise merge
the bids with multiplier `-1` and the asks with multiplier `1`. -/
def processSummary (bids asks : List Level) (summary : Summary) :
    List Level × List Level :=
  if summary.asks.isEmpty && summary.bids.isEmpty then (bids, asks)
  else
    ((processSummaryAsksBids summary.bids bids (-1)).1,
     (processSummaryAsksBids summary.asks asks 1).1)

/-- `OrderbookMerger::summary` (`src/merger.rs` lines 53–58): the output
Summary takes the first `depth` elements of each side. -/
def summaryOf (depth : ℕ) (bids asks : List Level) : Summary :=
  ⟨bids.take depth, asks.take depth⟩

/-- One iteration of the message branch of `OrderbookMerger::start`
(`src/merger.rs` lines 73–86): process the incoming summary and then —
unconditionally — send the truncated view downstream.  The second component
lists the Summaries emitted for this message. -/
def mergerStep (depth : ℕ) (bids asks : List Level) (s : Summary) :
    (List Level × List Level) × List Summary :=
  let p := processSummary bids asks s
  (p, [summaryOf depth p.1 p.2])

/-!  ## Adapter frame decoders (`src/binance.rs`, `src/bitstamp.rs`)  -/

/-- Outcome of a fallible conversion whose Rust source also contains
unchecked `Vec` indexing: `indexPanic` models the out-of-bounds panic,
`err` the `Err(..)` early return, `ok` the `Ok(..)` result. -/
inductive ConvResult (α : Type) where
  | indexPanic
  | err (e : WebsocketError)
  | ok (value : α)
deriving DecidableEq, Repr

/-- Sequencing of conversions: panics and errors propagate, matching the
order of evaluation of the Rust `?` operator. -/
def ConvResult.bind {α β : Type} : ConvResult α → (α → ConvResult β) → ConvResult β
  | .indexPanic, _ => .indexPanic
  | .err e, _ => .err e
  | .ok a, f => f a

/-- One loop body of the adapter conversions (`src/binance.rs` lines 40–46,
`src/bitstamp.rs` lines 45–51): read `entry[0]`, parse it as the price,
read `entry[1]`, parse it as the quantity, tagging the level with the fixed
exchange tag.  The unchecked indexing and the `?` on parse failures happen
in exactly this order.  The numeric parser (`str::parse::<f64>`) is
external to the repository and is passed in as a parameter. -/
def convLevel (tag : String) (parse : String → Option ℚ)
    (entry : List String) : ConvResult Level :=
  match entry[0]? with
  | none => .indexPanic
  | some p0 =>
    match parse p0 with
    | none => .err (.ParseError p0)
    | some price =>
      match entry[1]? with
      | none => .indexPanic
      | some q1 =>
        match parse q1 with
        | none => .err (.ParseError q1)
        | some quantity => .ok ⟨tag, price, quantity⟩

/-- The `for` loop over one side's raw entries: converts them in order,
stopping at the first panic or error. -/
def convLevels (tag : String) (parse : String → Option ℚ) :
    List (List String) → ConvResult (List Level)
  | [] => .ok []
  | e :: rest =>
    (convLevel tag parse e).bind fun l =>
      (convLevels tag parse rest).bind fun ls => .ok (l :: ls)

/-- Shared shape of `DepthSnapshot::try_into` (`src/binance.rs` lines 35–62)
and `Data::try_into` (`src/bitstamp.rs` lines 40–67): convert all bids, then
all asks, then build the Summary. -/
def rawTryIntoSummary (tag : String) (parse : String → Option ℚ)
    (bids asks : List (List String)) : ConvResult Summary :=
  (convLevels tag parse bids).bind fun bs =>
    (convLevels tag parse asks).bind fun aks => .ok ⟨bs, aks⟩

/-- `DepthSnapshot` of `src/binance.rs`: raw bid/ask string pairs. -/
structure DepthSnapshot where
  bids : List (List String)
  asks : List (List String)
deriving DecidableEq, Repr

/-- `Data` of `src/bitstamp.rs`: raw bid/ask string pairs. -/
structure BitstampData where
  bids : List (List String)
  asks : List (List String)
deriving DecidableEq, Repr

/-- `DepthSnapshot::try_into::<Summary>` of `src/binance.rs` lines 35–62,
tagging every level `"binance"`. -/
def DepthSnapshot.tryIntoSummary (d : DepthSnapshot)
    (parse : String → Option ℚ) : ConvResult Summary :=
  rawTryIntoSummary "binance" parse d.bids d.asks

/-- `Data::try_into::<Summary>` of `src/bitstamp.rs` lines 40–67, tagging
every level `"bitstamp"`. -/
def BitstampData.tryIntoSummary (d : BitstampData)
    (parse : String → Option ℚ) : ConvResult Summary :=
  rawTryIntoSummary "bitstamp" parse d.bids d.asks

/-!  ## Helper lemmas about the merge loop  -/

/-- The order the merge loop maintains: price scaled by the multiplier,
non-decreasing.  With `multiplier = 1` this is ascending price (asks), with
`multiplier = -1` descending price (bids). -/
def priceLE (m : ℚ) (a b : Level) : Prop :=
  a.price * m ≤ b.price * m

instance (m : ℚ) : DecidableRel (priceLE m) := fun a b =>
  inferInstanceAs (Decidable (a.price * m ≤ b.price * m))

theorem mergeLoop_subset (ex : String) (m : ℚ) (es is : List Level) :
    ∀ l ∈ mergeLoop ex m es is, l ∈ es ∨ l ∈ is := by
  induction es, is using mergeLoop.induct ex m with
  | case1 is =>
    intro l hl
    simp only [mergeLoop] at hl
    exact Or.inr hl
  | case2 a rest h ih =>
    intro l hl
    simp only [mergeLoop, if_pos h] at hl
    rcases ih l hl with h1 | h1
    · exact Or.inl (List.mem_cons_of_mem _ h1)
    · exact Or.inr h1
  | case3 a rest h ih =>
    intro l hl
    simp only [mergeLoop, if_neg h] at hl
    rcases List.mem_cons.mp hl with h1 | h1
    · exact Or.inl (h1 ▸ List.mem_cons_self _ _)
    · rcases ih l h1 with h2 | h2
      · exact Or.inl (List.mem_cons_of_mem _ h2)
      · exact Or.inr h2
  | case4 a rest s srest h ih =>
    intro l hl
    simp only [mergeLoop, if_pos h] at hl
    rcases ih l hl with h1 | h1
    · exact Or.inl (List.mem_cons_of_mem _ h1)
    · exact Or.inr h1
  | case5 a rest s srest h hlt ih =>
    intro l hl
    simp only [mergeLoop, if_neg h, if_pos hlt] at hl
    rcases List.mem_cons.mp hl with h1 | h1
    · exact Or.inl (h1 ▸ List.mem_cons_self _ _)
    · rcases ih l h1 with h2 | h2
      · exact Or.inl (List.mem_cons_of_mem _ h2)
      · exact Or.inr h2
  | case6 a rest s srest h hlt ih =>
    intro l hl
    simp only [mergeLoop, if_neg h, if_neg hlt] at hl
    rcases List.mem_cons.mp hl with h1 | h1
    · exact Or.inr (h1 ▸ List.mem_cons_self _ _)
    · rcases ih l h1 with h2 | h2
      · exact Or.inl h2
      · exact Or.inr (List.mem_cons_of_mem _ h2)

theorem mergeLoop_pairwise (ex : String) (m : ℚ) :
    ∀ es is : List Level, es.Pairwise (priceLE m) → is.Pairwise (priceLE m) →
      (mergeLoop ex m es is).Pairwise (priceLE m) := by
  intro es is
  induction es, is using mergeLoop.induct ex m with
  | case1 is =>
    intro _ his
    simpa only [mergeLoop] using his
  | case2 a rest h ih =>
    intro hes his
    simp only [mergeLoop, if_pos h]
    exact ih (List.pairwise_cons.mp hes).2 his
  | case3 a rest h ih =>
    intro hes his
    simp only [mergeLoop, if_neg h]
    rcases List.pairwise_cons.mp hes with ⟨ha, hrest⟩
    refine List.pairwise_cons.mpr ⟨?_, ih hrest his⟩
    intro b hb
    rcases mergeLoop_subset ex m rest [] b hb with h1 | h1
    · exact ha b h1
    · exact absurd h1 (List.not_mem_nil b)
  | case4 a rest s srest h ih =>
    intro hes his
    simp only [mergeLoop, if_pos h]
    exact ih (List.pairwise_cons.mp hes).2 his
  | case5 a rest s srest h hlt ih =>
    intro hes his
    simp only [mergeLoop, if_neg h, if_pos hlt]
    rcases List.pairwise_cons.mp hes with ⟨ha, hrest⟩
    rcases List.pairwise_cons.mp his with ⟨hs, hsrest⟩
    refine List.pairwise_cons.mpr ⟨?_, ih hrest his⟩
    intro b hb
    rcases mergeLoop_subset ex m rest (s :: srest) b hb with h1 | h1
    · exact ha b h1
    · rcases List.mem_cons.mp h1 with h2 | h2
      · exact h2 ▸ le_of_lt hlt
      · exact le_trans (le_of_lt hlt) (hs b h2)
  | case6 a rest s srest h hlt ih =>
    intro hes his
    simp only [mergeLoop, if_neg h, if_neg hlt]
    rcases List.pairwise_cons.mp hes with ⟨ha, hrest⟩
    rcases List.pairwise_cons.mp his with ⟨hs, hsrest⟩
    refine List.pairwise_cons.mpr ⟨?_, ih hes hsrest⟩
    intro b hb
    have hsa : priceLE m s a := le_of_not_lt hlt
    rcases mergeLoop_subset ex m (a :: rest) srest b hb with h1 | h1
    · rcases List.mem_cons.mp h1 with h2 | h2
      · exact h2 ▸ hsa
      · exact le_trans hsa (ha b h2)
    · exact hs b h1

/-- Filtering the merged list for the source exchange recovers exactly the
incoming levels, provided all incoming levels carry that exchange. -/
theorem mergeLoop_filter_source (ex : String) (m : ℚ) :
    ∀ es is : List Level, (∀ l ∈ is, l.exchange = ex) →
      (mergeLoop ex m es is).filter (fun l => l.exchange == ex) = is := by
  intro es is
  induction es, is using mergeLoop.induct ex m with
  | case1 is =>
    intro his
    simp only [mergeLoop]
    exact List.filter_eq_self.mpr fun l hl => beq_iff_eq.mpr (his l hl)
  | case2 a rest h ih =>
    intro his
    simp only [mergeLoop, if_pos h]
    exact ih his
  | case3 a rest h ih =>
    intro his
    simp only [mergeLoop, if_neg h]
    rw [List.filter_cons_of_neg (by simpa using h)]
    exact ih his
  | case4 a rest s srest h ih =>
    intro his
    simp only [mergeLoop, if_pos h]
    exact ih his
  | case5 a rest s srest h hlt ih =>
    intro his
    simp only [mergeLoop, if_neg h, if_pos hlt]
    rw [List.filter_cons_of_neg (by simpa using h)]
    exact ih his
  | case6 a rest s srest h hlt ih =>
    intro his
    simp only [mergeLoop, if_neg h, if_neg hlt]
    rw [List.filter_cons_of_pos
      (by simpa using his s (List.mem_cons_self _ _))]
    rw [ih fun l hl => his l (List.mem_cons_of_mem _ hl)]

/-- Filtering the merged list for the other exchanges recovers exactly the
retained part of the existing side, provided all incoming levels carry the
source exchange. -/
theorem mergeLoop_filter_others (ex : String) (m : ℚ) :
    ∀ es is : List Level, (∀ l ∈ is, l.exchange = ex) →
      (mergeLoop ex m es is).filter (fun l => l.exchange != ex) =
        es.filter (fun l => l.exchange != ex) := by
  intro es is
  induction es, is using mergeLoop.induct ex m with
  | case1 is =>
    intro his
    simp only [mergeLoop, List.filter_nil]
    exact List.filter_eq_nil_iff.mpr fun l hl => by simpa using his l hl
  | case2 a rest h ih =>
    intro his
    simp only [mergeLoop, if_pos h]
    rw [List.filter_cons_of_neg (by simpa using h)]
    exact ih his
  | case3 a rest h ih =>
    intro his
    simp only [mergeLoop, if_neg h]
    rw [List.filter_cons_of_pos (by simpa using h),
      List.filter_cons_of_pos (by simpa using h)]
    rw [ih his]
  | case4 a rest s srest h ih =>
    intro his
    simp only [mergeLoop, if_pos h]
    rw [List.filter_cons_of_neg (by simpa using h)]
    exact ih his
  | case5 a rest s srest h hlt ih =>
    intro his
    simp only [mergeLoop, if_neg h, if_pos hlt]
    rw [List.filter_cons_of_pos (by simpa using h),
      List.filter_cons_of_pos (by simpa using h)]
    rw [ih his]
  | case6 a rest s srest h hlt ih =>
    intro his
    simp only [mergeLoop, if_neg h, if_neg hlt]
    rw [List.filter_cons_of_neg
      (by simpa using his s (List.mem_cons_self _ _))]
    exact ih fun l hl => his l (List.mem_cons_of_mem _ hl)

/-- The merge loop only depends on the existing side through the levels not
carrying the source exchange: skipping is the same as pre-filtering. -/
theorem mergeLoop_filter_left (ex : String) (m : ℚ) :
    ∀ es is : List Level,
      mergeLoop ex m es is =
        mergeLoop ex m (es.filter (fun l => l.exchange != ex)) is := by
  intro es is
  induction es, is using mergeLoop.induct ex m with
  | case1 is => simp
  | case2 a rest h ih =>
    simp only [mergeLoop, if_pos h]
    rw [List.filter_cons_of_neg (by simpa using h)]
    exact ih
  | case3 a rest h ih =>
    simp only [mergeLoop, if_neg h]
    rw [List.filter_cons_of_pos (by simpa using h)]
    simp only [mergeLoop, if_neg h]
    rw [ih]
  | case4 a rest s srest h ih =>
    simp only [mergeLoop, if_pos h]
    rw [List.filter_cons_of_neg (by simpa using h)]
    exact ih
  | case5 a rest s srest h hlt ih =>
    simp only [mergeLoop, if_neg h, if_pos hlt]
    rw [List.filter_cons_of_pos (by simpa using h)]
    simp only [mergeLoop, if_neg h, if_pos hlt]
    rw [ih]
  | case6 a rest s srest h hlt ih =>
    simp only [mergeLoop, if_neg h, if_neg hlt]
    rw [List.filter_cons_of_pos (by simpa using h)]
    simp only [mergeLoop, if_neg h, if_neg hlt]
    rw [ih, List.filter_cons_of_pos (by simpa using h)]

/-- Re-merging the same incoming side into the already-merged result gives
the merged result again, provided all incoming levels carry one exchange. -/
theorem psab_idem (is es : List Level) (m : ℚ) (ex : String)
    (hex : ∀ l ∈ is, l.exchange = ex) :
    (processSummaryAsksBids is ((processSummaryAsksBids is es m).1) m).1 =
      (processSummaryAsksBids is es m).1 := by
  cases is with
  | nil => rfl
  | cons i irest =>
    have hi : i.exchange = ex := hex i (List.mem_cons_self _ _)
    simp only [processSummaryAsksBids, hi]
    calc mergeLoop ex m (mergeLoop ex m es (i :: irest)) (i :: irest)
        = mergeLoop ex m
            ((mergeLoop ex m es (i :: irest)).filter
              (fun l => l.exchange != ex)) (i :: irest) :=
          mergeLoop_filter_left ex m _ _
      _ = mergeLoop ex m (es.filter (fun l => l.exchange != ex))
            (i :: irest) := by
          rw [mergeLoop_filter_others ex m es (i :: irest) hex]
      _ = mergeLoop ex m es (i :: irest) :=
          (mergeLoop_filter_left ex m es (i :: irest)).symm

/-!  ## Claims  -/

theorem processSummary_fst (bids asks : List Level) (s : Summary)
    (hne : s.bids ≠ []) :
    (processSummary bids asks s).1 =
      (processSummaryAsksBids s.bids bids (-1)).1 := by
  obtain ⟨sb, sa⟩ := s
  cases sb with
  | nil => simp at hne
  | cons b brest => simp [processSummary]

theorem processSummary_snd (bids asks : List Level) (s : Summary)
    (hne : s.asks ≠ []) :
    (processSummary bids asks s).2 =
      (processSummaryAsksBids s.asks asks 1).1 := by
  obtain ⟨sb, sa⟩ := s
  cases sa with
  | nil => simp at hne
  | cons a arest => simp [processSummary]

/-- C1 counterexample: an incoming Summary from `"binance"` with empty bids
and non-empty asks does not purge the old `"binance"` bid level, so the
bid levels contributed by `"binance"` after the step differ from the bids
of the most recent `"binance"` Summary (which are empty): the purge is not
applied to a side the incoming Summary leaves empty. -/
theorem claim1_counterexample :
    processSummary [⟨"binance", 1, 10⟩] [] ⟨[], [⟨"binance", 2, 5⟩]⟩ =
      ([⟨"binance", 1, 10⟩], [⟨"binance", 2, 5⟩]) ∧
    (processSummary [⟨"binance", 1, 10⟩] []
        ⟨[], [⟨"binance", 2, 5⟩]⟩).1.filter
        (fun l => l.exchange == "binance") ≠
      (Summary.mk [] [⟨"binance", 2, 5⟩]).bids := by
  have h : processSummary [⟨"binance", 1, 10⟩] [] ⟨[], [⟨"binance", 2, 5⟩]⟩ =
      ([⟨"binance", 1, 10⟩], [⟨"binance", 2, 5⟩]) := by
    simp [processSummary, processSummaryAsksBids, mergeLoop]
  refine ⟨h, ?_⟩
  rw [h]
  decide

/-- C1 (amended): after the merger processes a Summary whose levels all
carry exchange `ex`, then on each side on which the incoming Summary is
non-empty, the levels carrying `ex` equal exactly the incoming side's
levels (the old contribution of `ex` is purged and replaced) and the levels
of all other exchanges are preserved in order.  A side the incoming Summary
leaves empty is not touched at all, so the previous contribution of `ex`
survives there. -/
theorem claim1_exchange_contribution (bids asks : List Level) (s : Summary)
    (ex : String)
    (hb : ∀ l ∈ s.bids, l.exchange = ex)
    (ha : ∀ l ∈ s.asks, l.exchange = ex) :
    (s.bids ≠ [] →
      (processSummary bids asks s).1.filter (fun l => l.exchange == ex) =
        s.bids ∧
      (processSummary bids asks s).1.filter (fun l => l.exchange != ex) =
        bids.filter (fun l => l.exchange != ex)) ∧
    (s.asks ≠ [] →
      (processSummary bids asks s).2.filter (fun l => l.exchange == ex) =
        s.asks ∧
      (processSummary bids asks s).2.filter (fun l => l.exchange != ex) =
        asks.filter (fun l => l.exchange != ex)) := by
  constructor
  · intro hne
    rw [processSummary_fst bids asks s hne]
    cases hsb : s.bids with
    | nil => exact absurd hsb hne
    | cons b brest =>
      have hmem : ∀ l ∈ b :: brest, l.exchange = ex := by
        intro l hl
        exact hb l (by rw [hsb]; exact hl)
      have hbex : b.exchange = ex := hmem b (List.mem_cons_self _ _)
      simp only [processSummaryAsksBids, hbex]
      exact ⟨hsb ▸ mergeLoop_filter_source ex (-1) bids (b :: brest) hmem,
             mergeLoop_filter_others ex (-1) bids (b :: brest) hmem⟩
  · intro hne
    rw [processSummary_snd bids asks s hne]
    cases hsa : s.asks with
    | nil => exact absurd hsa hne
    | cons a arest =>
      have hmem : ∀ l ∈ a :: arest, l.exchange = ex := by
        intro l hl
        exact ha l (by rw [hsa]; exact hl)
      have haex : a.exchange = ex := hmem a (List.mem_cons_self _ _)
      simp only [processSummaryAsksBids, haex]
      exact ⟨hsa ▸ mergeLoop_filter_source ex 1 asks (a :: arest) hmem,
             mergeLoop_filter_others ex 1 asks (a :: arest) hmem⟩

/-- C1 witness: a `"binance"` Summary replaces the book's `"binance"` bid
contribution and preserves the `"bitstamp"` level. -/
theorem claim1_witness :
    (processSummary [⟨"binance", 1, 10⟩, ⟨"bitstamp", 0.9, 4⟩] []
        ⟨[⟨"binance", 2, 1⟩], []⟩).1.filter
        (fun l => l.exchange == "binance") =
      (Summary.mk [⟨"binance", 2, 1⟩] []).bids ∧
    (processSummary [⟨"binance", 1, 10⟩, ⟨"bitstamp", 0.9, 4⟩] []
        ⟨[⟨"binance", 2, 1⟩], []⟩).1.filter
        (fun l => l.exchange != "binance") =
      [⟨"binance", 1, 10⟩, ⟨"bitstamp", 0.9, 4⟩].filter
        (fun l => l.exchange != "binance") :=
  (claim1_exchange_contribution [⟨"binance", 1, 10⟩, ⟨"bitstamp", 0.9, 4⟩] []
    ⟨[⟨"binance", 2, 1⟩], []⟩ "binance" (by decide) (by decide)).1
    (by decide)

/-- C3: processing any Summary whose sides are sorted (bids non-increasing,
asks non-decreasing in price) from a state whose sides are likewise sorted
leaves the merger's bids non-increasing and asks non-decreasing in price. -/
theorem claim3_sorted_preserved (bids asks : List Level) (s : Summary)
    (hbids : bids.Pairwise (fun a b => b.price ≤ a.price))
    (hasks : asks.Pairwise (fun a b => a.price ≤ b.price))
    (hsbids : s.bids.Pairwise (fun a b => b.price ≤ a.price))
    (hsasks : s.asks.Pairwise (fun a b => a.price ≤ b.price)) :
    (processSummary bids asks s).1.Pairwise (fun a b => b.price ≤ a.price) ∧
    (processSummary bids asks s).2.Pairwise (fun a b => a.price ≤ b.price) := by
  have toNeg : ∀ l : List Level,
      l.Pairwise (fun a b => b.price ≤ a.price) → l.Pairwise (priceLE (-1)) :=
    fun l h => h.imp fun hab => by simpa [priceLE] using hab
  have fromNeg : ∀ l : List Level,
      l.Pairwise (priceLE (-1)) → l.Pairwise (fun a b => b.price ≤ a.price) :=
    fun l h => h.imp fun hab => by simpa [priceLE] using hab
  have toPos : ∀ l : List Level,
      l.Pairwise (fun a b => a.price ≤ b.price) → l.Pairwise (priceLE 1) :=
    fun l h => h.imp fun hab => by simpa [priceLE] using hab
  have fromPos : ∀ l : List Level,
      l.Pairwise (priceLE 1) → l.Pairwise (fun a b => a.price ≤ b.price) :=
    fun l h => h.imp fun hab => by simpa [priceLE] using hab
  simp only [processSummary]
  split
  · exact ⟨hbids, hasks⟩
  · constructor
    · cases hsb : s.bids with
      | nil => exact hbids
      | cons b brest =>
        rw [hsb] at hsbids
        exact fromNeg _ (mergeLoop_pairwise b.exchange (-1) bids (b :: brest)
          (toNeg _ hbids) (toNeg _ hsbids))
    · cases hsa : s.asks with
      | nil => exact hasks
      | cons a arest =>
        rw [hsa] at hsasks
        exact fromPos _ (mergeLoop_pairwise a.exchange 1 asks (a :: arest)
          (toPos _ hasks) (toPos _ hsasks))

/-- C3 witness: the sortedness theorem at a concrete sorted state and a
concrete sorted incoming Summary. -/
theorem claim3_witness :
    ([⟨"bitstamp", 3, 1⟩, ⟨"bitstamp", 2, 1⟩] :
        List Level).Pairwise (fun a b => b.price ≤ a.price) ∧
    ([⟨"bitstamp", 5, 1⟩, ⟨"bitstamp", 6, 1⟩] :
        List Level).Pairwise (fun a b => a.price ≤ b.price) ∧
    (processSummary [⟨"bitstamp", 3, 1⟩, ⟨"bitstamp", 2, 1⟩]
        [⟨"bitstamp", 5, 1⟩, ⟨"bitstamp", 6, 1⟩]
        ⟨[⟨"binance", 4, 2⟩], [⟨"binance", 5, 2⟩]⟩).1.Pairwise
        (fun a b => b.price ≤ a.price) ∧
    (processSummary [⟨"bitstamp", 3, 1⟩, ⟨"bitstamp", 2, 1⟩]
        [⟨"bitstamp", 5, 1⟩, ⟨"bitstamp", 6, 1⟩]
        ⟨[⟨"binance", 4, 2⟩], [⟨"binance", 5, 2⟩]⟩).2.Pairwise
        (fun a b => a.price ≤ b.price) :=
  ⟨by decide, by decide,
   (claim3_sorted_preserved _ _ _ (by decide) (by decide) (by decide)
      (by decide)).1,
   (claim3_sorted_preserved _ _ _ (by decide) (by decide) (by decide)
      (by decide)).2⟩

/-- C6: replaying the same single-exchange, not-both-sides-empty Summary
twice in a row leaves the merger's internal bids and asks unchanged by the
second processing, and the Summary emitted for the second message equals
the one emitted for the first (idempotence under identical-input replay). -/
theorem claim6_replay_idempotent (depth : ℕ) (bids asks : List Level)
    (s : Summary) (ex : String)
    (hne : ¬(s.bids = [] ∧ s.asks = []))
    (hb : ∀ l ∈ s.bids, l.exchange = ex)
    (ha : ∀ l ∈ s.asks, l.exchange = ex) :
    processSummary (processSummary bids asks s).1
        (processSummary bids asks s).2 s = processSummary bids asks s ∧
    (mergerStep depth (processSummary bids asks s).1
        (processSummary bids asks s).2 s).2 =
      (mergerStep depth bids asks s).2 := by
  have hor : s.bids ≠ [] ∨ s.asks ≠ [] := by tauto
  have hcond : ¬((s.asks.isEmpty && s.bids.isEmpty) = true) := by
    rcases hor with h | h <;> simp [List.isEmpty_eq_false.mpr h]
  have hstate : processSummary (processSummary bids asks s).1
      (processSummary bids asks s).2 s = processSummary bids asks s := by
    conv_lhs => simp only [processSummary, if_neg hcond]
    conv_rhs => simp only [processSummary, if_neg hcond]
    exact Prod.ext (psab_idem s.bids bids (-1) ex hb)
      (psab_idem s.asks asks 1 ex ha)
  refine ⟨hstate, ?_⟩
  simp only [mergerStep, hstate]

/-- C6 witness: the replay theorem at a concrete state and a concrete
`"binance"` Summary. -/
theorem claim6_witness :
    (¬((Summary.mk [⟨"binance", 1, 2⟩] []).bids = [] ∧
        (Summary.mk [⟨"binance", 1, 2⟩] []).asks = [])) ∧
    processSummary
        (processSummary [⟨"bitstamp", 2, 3⟩] []
          (Summary.mk [⟨"binance", 1, 2⟩] [])).1
        (processSummary [⟨"bitstamp", 2, 3⟩] []
          (Summary.mk [⟨"binance", 1, 2⟩] [])).2
        (Summary.mk [⟨"binance", 1, 2⟩] []) =
      processSummary [⟨"bitstamp", 2, 3⟩] []
        (Summary.mk [⟨"binance", 1, 2⟩] []) :=
  ⟨by decide,
   (claim6_replay_idempotent 2 [⟨"bitstamp", 2, 3⟩] []
      (Summary.mk [⟨"binance", 1, 2⟩] []) "binance" (by decide) (by decide)
      (by decide)).1⟩

/-- C2 counterexample: the merger's message loop sends
`self.summary().into()` unconditionally (`src/merger.rs` line 84), so a
Summary with both sides empty still produces one emitted output Summary,
contrary to the claim that no output is emitted. -/
theorem claim2_counterexample :
    (mergerStep 2 [⟨"binance", 1, 10⟩] [⟨"binance", 2, 10⟩]
        ⟨[], []⟩).2 ≠ [] ∧
    mergerStep 2 [⟨"binance", 1, 10⟩] [⟨"binance", 2, 10⟩] ⟨[], []⟩ =
      (([⟨"binance", 1, 10⟩], [⟨"binance", 2, 10⟩]),
       [⟨[⟨"binance", 1, 10⟩], [⟨"binance", 2, 10⟩]⟩]) := by
  constructor
  · decide
  · decide

/-- C2 (amended): when the merger receives a Summary whose bids and asks
are both empty, its bids and asks state is left unchanged, but one output
Summary — the truncated view of the unchanged book — is still emitted. -/
theorem claim2_empty_summary (depth : ℕ) (bids asks : List Level)
    (s : Summary) (hb : s.bids = []) (ha : s.asks = []) :
    mergerStep depth bids asks s =
      ((bids, asks), [summaryOf depth bids asks]) := by
  simp [mergerStep, processSummary, hb, ha]

/-- C2 witness: the amended theorem applied at a concrete state and the
empty Summary. -/
theorem claim2_witness :
    (Summary.mk [] []).bids = [] ∧ (Summary.mk [] []).asks = [] ∧
    mergerStep 2 [⟨"binance", 1, 10⟩] [] (Summary.mk [] []) =
      (([⟨"binance", 1, 10⟩], []), [summaryOf 2 [⟨"binance", 1, 10⟩] []]) :=
  ⟨rfl, rfl, claim2_empty_summary 2 [⟨"binance", 1, 10⟩] [] ⟨[], []⟩ rfl rfl⟩

/-- C4: the output Summary built by the merger is the first `depth`
elements of each side of the canonical book, hence contains at most `depth`
bids and `depth` asks, and with `depth = 0` both sides are empty. -/
theorem claim4_depth_bound (depth : ℕ) (bids asks : List Level) :
    (summaryOf depth bids asks).bids = bids.take depth ∧
    (summaryOf depth bids asks).asks = asks.take depth ∧
    (summaryOf depth bids asks).bids.length ≤ depth ∧
    (summaryOf depth bids asks).asks.length ≤ depth ∧
    (depth = 0 →
      (summaryOf depth bids asks).bids = [] ∧
      (summaryOf depth bids asks).asks = []) := by
  refine ⟨rfl, rfl, ?_, ?_, ?_⟩
  · exact List.length_take_le depth bids
  · exact List.length_take_le depth asks
  · intro h
    subst h
    simp [summaryOf]

/-- C4 witness: the depth-0 case of the theorem at a concrete book. -/
theorem claim4_witness :
    (summaryOf 0 [⟨"binance", 1, 10⟩] [⟨"bitstamp", 2, 5⟩]).bids = [] ∧
    (summaryOf 0 [⟨"binance", 1, 10⟩] [⟨"bitstamp", 2, 5⟩]).asks = [] :=
  (claim4_depth_bound 0 [⟨"binance", 1, 10⟩] [⟨"bitstamp", 2, 5⟩]).2.2.2.2 rfl

/-- C5: in the merger's linear merge, when a retained existing level (one
whose exchange differs from the incoming exchange, so it is not skipped)
and the incoming level compare equal on price, the incoming level is placed
first; this holds for any multiplier, so for both the bid ordering
(`multiplier = -1`) and the ask ordering (`multiplier = 1`). -/
theorem claim5_tie_incoming_first (ex : String) (m : ℚ) (e i : Level)
    (es is : List Level) (hskip : e.exchange ≠ ex) (hp : e.price = i.price) :
    mergeLoop ex m (e :: es) (i :: is) = i :: mergeLoop ex m (e :: es) is := by
  simp only [mergeLoop, if_neg hskip, hp, if_neg (lt_irrefl _)]

/-- C5 witness: an equal-price existing/incoming pair; the incoming
`"binance"` level is emitted before the retained `"bitstamp"` level. -/
theorem claim5_witness :
    ("bitstamp" : String) ≠ "binance" ∧
    mergeLoop "binance" 1 [⟨"bitstamp", 2, 1⟩] [⟨"binance", 2, 3⟩] =
      ⟨"binance", 2, 3⟩ :: mergeLoop "binance" 1 [⟨"bitstamp", 2, 1⟩] [] :=
  ⟨by decide,
   claim5_tie_incoming_first "binance" 1 ⟨"bitstamp", 2, 1⟩ ⟨"binance", 2, 3⟩
     [] [] (by decide) rfl⟩

/-- C7: `spread` is NaN (modelled as `none`) iff the bids side or the asks
side is empty; otherwise it is `asks[0].price − bids[0].price`. -/
theorem claim7_spread (s : Summary) :
    (s.spread = none ↔ s.bids = [] ∨ s.asks = []) ∧
    (∀ a arest b brest, s.asks = a :: arest → s.bids = b :: brest →
      s.spread = some (a.price - b.price)) := by
  obtain ⟨bids, asks⟩ := s
  constructor
  · cases asks <;> cases bids <;> simp [Summary.spread]
  · intro a arest b brest ha hb
    simp only at ha hb
    subst ha
    subst hb
    simp [Summary.spread]

/-- C7 witness: the non-empty case of the spread theorem at a concrete
Summary, and the empty case through the iff. -/
theorem claim7_witness :
    (Summary.mk [⟨"binance", 1, 10⟩] [⟨"binance", 3, 5⟩]).spread =
      some ((3 : ℚ) - 1) ∧
    (Summary.mk [] [⟨"binance", 3, 5⟩]).spread = none :=
  ⟨(claim7_spread ⟨[⟨"binance", 1, 10⟩], [⟨"binance", 3, 5⟩]⟩).2
      ⟨"binance", 3, 5⟩ [] ⟨"binance", 1, 10⟩ [] rfl rfl,
   (claim7_spread ⟨[], [⟨"binance", 3, 5⟩]⟩).1.mpr (Or.inl rfl)⟩

/-- C8 counterexample: `Asset::try_from` matches the lowercase codes only
(`src/types.rs` lines 44–55), so the uppercase and mixed-case forms the
claim requires to succeed fail with `InvalidAsset`. -/
theorem claim8_counterexample :
    Asset.tryFrom "BTC" = Except.error (.InvalidAsset "BTC") ∧
    Asset.tryFrom "Btc" = Except.error (.InvalidAsset "Btc") ∧
    Asset.tryFrom "btc" = Except.ok .BTC :=
  ⟨rfl, rfl, rfl⟩

/-- C8 (amended): Asset parsing is case-sensitive and lowercase-only: it
succeeds exactly on the ten lowercase codes, and every other string —
including uppercase forms such as `"BTC"` — fails with `InvalidAsset`
carrying the input text.  (Case-insensitivity exists only at the Symbol
level, which lowercases before splitting.) -/
theorem claim8_lowercase_only (s : String) :
    ((∃ a, Asset.tryFrom s = Except.ok a) ↔ s ∈ assetCodes) ∧
    (s ∉ assetCodes → Asset.tryFrom s = Except.error (.InvalidAsset s)) := by
  have hout : s ∉ assetCodes →
      Asset.tryFrom s = Except.error (.InvalidAsset s) := by
    intro hmem
    simp only [assetCodes, List.mem_cons, List.not_mem_nil, or_false] at hmem
    push_neg at hmem
    obtain ⟨h1, h2, h3, h4, h5, h6, h7, h8, h9, h10⟩ := hmem
    simp [Asset.tryFrom, h1, h2, h3, h4, h5, h6, h7, h8, h9, h10]
  refine ⟨⟨?_, ?_⟩, hout⟩
  · rintro ⟨a, ha⟩
    by_contra hmem
    rw [hout hmem] at ha
    simp at ha
  · intro hmem
    simp only [assetCodes, List.mem_cons, List.not_mem_nil, or_false] at hmem
    rcases hmem with rfl | rfl | rfl | rfl | rfl | rfl | rfl | rfl | rfl | rfl
    · exact ⟨.ADA, rfl⟩
    · exact ⟨.BTC, rfl⟩
    · exact ⟨.DOT, rfl⟩
    · exact ⟨.ETH, rfl⟩
    · exact ⟨.LINK, rfl⟩
    · exact ⟨.LTC, rfl⟩
    · exact ⟨.SOL, rfl⟩
    · exact ⟨.USD, rfl⟩
    · exact ⟨.USDT, rfl⟩
    · exact ⟨.USDC, rfl⟩

/-- C8 witness: the amended theorem applied to the unknown code `"xyz"`
and, through the iff, to the accepted code `"eth"`. -/
theorem claim8_witness :
    ("xyz" : String) ∉ assetCodes ∧
    Asset.tryFrom "xyz" = Except.error (.InvalidAsset "xyz") ∧
    (∃ a, Asset.tryFrom "eth" = Except.ok a) :=
  ⟨by decide, (claim8_lowercase_only "xyz").2 (by decide),
   (claim8_lowercase_only "eth").1.mpr (by decide)⟩

theorem assetTryFrom_ok_iff (s : String) (a : Asset) :
    Asset.tryFrom s = Except.ok a ↔ s = lowercaseCode a := by
  constructor
  · intro h
    unfold Asset.tryFrom at h
    split_ifs at h
    all_goals try (injection h with h0; subst h0; simp_all [lowercaseCode])
  · intro h
    subst h
    cases a <;> rfl

theorem assetTryFrom_error_shape (s : String) (e : WebsocketError)
    (h : Asset.tryFrom s = Except.error e) : e = .InvalidAsset s := by
  unfold Asset.tryFrom at h
  split_ifs at h
  all_goals simp_all

theorem splitAtSlash_some_eq (l : List Char) :
    ∀ pre post, splitAtSlash l = some (pre, post) → l = pre ++ '/' :: post := by
  induction l with
  | nil =>
    intro pre post h
    simp [splitAtSlash] at h
  | cons c rest ih =>
    intro pre post h
    simp only [splitAtSlash] at h
    by_cases hc : c = '/'
    · rw [if_pos hc] at h
      simp only [Option.some.injEq, Prod.mk.injEq] at h
      obtain ⟨h1, h2⟩ := h
      subst h1
      subst h2
      simp [hc]
    · rw [if_neg hc] at h
      cases hsp : splitAtSlash rest with
      | none =>
        rw [hsp] at h
        simp at h
      | some pr =>
        obtain ⟨pre', post'⟩ := pr
        rw [hsp] at h
        simp only [Option.some.injEq, Prod.mk.injEq] at h
        obtain ⟨h1, h2⟩ := h
        subst h1
        subst h2
        simp only [List.cons_append, List.cons.injEq, true_and]
        exact ih pre' post' hsp

theorem splitAtSlash_none_of (l : List Char) (h : '/' ∉ l) :
    splitAtSlash l = none := by
  induction l with
  | nil => rfl
  | cons c rest ih =>
    simp only [List.mem_cons] at h
    push_neg at h
    have hc : ¬c = '/' := fun hcc => h.1 hcc.symm
    simp only [splitAtSlash, if_neg hc, ih h.2]

theorem splitAtSlash_append (pre post : List Char) (h : '/' ∉ pre) :
    splitAtSlash (pre ++ '/' :: post) = some (pre, post) := by
  induction pre with
  | nil => simp [splitAtSlash]
  | cons c rest ih =>
    simp only [List.mem_cons] at h
    push_neg at h
    have hc : ¬c = '/' := fun hcc => h.1 hcc.symm
    simp only [List.cons_append, splitAtSlash, if_neg hc, List.append_eq,
      ih h.2]

theorem lowercaseCode_no_slash (a : Asset) :
    '/' ∉ (lowercaseCode a).toList := by
  cases a <;> decide

theorem string_mk_toList (s : String) : String.mk s.toList = s := rfl

theorem splitAtSlash_isSome (l : List Char) (h : '/' ∈ l) :
    ∃ pre post, splitAtSlash l = some (pre, post) := by
  induction l with
  | nil => simp at h
  | cons c rest ih =>
    by_cases hc : c = '/'
    · exact ⟨[], rest, by simp [splitAtSlash, hc]⟩
    · have hr : '/' ∈ rest := by
        rcases List.mem_cons.mp h with h1 | h1
        · exact absurd h1.symm hc
        · exact h1
      obtain ⟨pre, post, hsp⟩ := ih hr
      exact ⟨c :: pre, post, by simp [splitAtSlash, if_neg hc, hsp]⟩

theorem exceptBindPair (x y : Except WebsocketError Asset) (b q : Asset) :
    ((do
      let b' ← x
      let q' ← y
      pure (⟨b', q'⟩ : Symbol)) = Except.ok ⟨b, q⟩) ↔
      x = Except.ok b ∧ y = Except.ok q := by
  cases x <;> cases y <;> simp [Bind.bind, Except.bind, pure, Except.pure, and_assoc]

theorem exceptBindPair_error (x y : Except WebsocketError Asset)
    (e : WebsocketError)
    (h : (do
      let b' ← x
      let q' ← y
      pure (⟨b', q'⟩ : Symbol)) = Except.error e) :
    x = Except.error e ∨ y = Except.error e := by
  cases x with
  | error e1 =>
    left
    simpa [Bind.bind, Except.bind] using h
  | ok b' =>
    cases y with
    | error e2 =>
      right
      simpa [Bind.bind, Except.bind] using h
    | ok q' => simp [Bind.bind, Except.bind, pure, Except.pure] at h

theorem symbolTryFrom_of_split (value : String) (pre post : List Char)
    (hsp : splitAtSlash (lowerChars value) = some (pre, post)) :
    Symbol.tryFrom value = (do
      let b ← Asset.tryFrom (String.mk pre)
      let q ← Asset.tryFrom (String.mk post)
      pure ⟨b, q⟩) := by
  unfold Symbol.tryFrom
  rw [hsp]

theorem symbolTryFrom_of_no_split (value : String)
    (hsp : splitAtSlash (lowerChars value) = none) :
    Symbol.tryFrom value =
      Except.error (.InvalidPair (String.mk (lowerChars value))) := by
  unfold Symbol.tryFrom
  rw [hsp]

/-- C9 counterexample: `Symbol::try_from` does not require base and quote
to be distinct (`"btc/btc"` parses successfully), and an unrecognized side
fails with the propagated `InvalidAsset` error, not with `InvalidPair`. -/
theorem claim9_counterexample :
    Symbol.tryFrom "btc/btc" = Except.ok ⟨.BTC, .BTC⟩ ∧
    Symbol.tryFrom "xx/btc" = Except.error (.InvalidAsset "xx") := by
  constructor <;> rfl

/-- C9 (amended): Symbol parsing lowercases the input and splits at the
first `'/'`: it succeeds with `⟨b, q⟩` exactly when the lowercased text is
`<code of b>/<code of q>` for recognized assets `b` and `q` (not
necessarily distinct); a missing slash fails with `InvalidPair` carrying
the lowercased text, while any failure in the presence of a slash is an
`InvalidAsset` error for an unrecognized side. -/
theorem claim9_symbol_parse (value : String) (b q : Asset) :
    (Symbol.tryFrom value = Except.ok ⟨b, q⟩ ↔
      lowerChars value =
        (lowercaseCode b).toList ++ '/' :: (lowercaseCode q).toList) ∧
    ('/' ∉ lowerChars value →
      Symbol.tryFrom value =
        Except.error (.InvalidPair (String.mk (lowerChars value)))) ∧
    (∀ e, '/' ∈ lowerChars value →
      Symbol.tryFrom value = Except.error e → ∃ t, e = .InvalidAsset t) := by
  refine ⟨⟨?_, ?_⟩, ?_, ?_⟩
  · intro h
    cases hsp : splitAtSlash (lowerChars value) with
    | none =>
      rw [symbolTryFrom_of_no_split value hsp] at h
      simp at h
    | some pr =>
      obtain ⟨pre, post⟩ := pr
      rw [symbolTryFrom_of_split value pre post hsp, exceptBindPair] at h
      obtain ⟨hb, hq⟩ := h
      have hpre : pre = (lowercaseCode b).toList :=
        congrArg String.toList ((assetTryFrom_ok_iff (String.mk pre) b).mp hb)
      have hpost : post = (lowercaseCode q).toList :=
        congrArg String.toList ((assetTryFrom_ok_iff (String.mk post) q).mp hq)
      rw [← hpre, ← hpost]
      exact splitAtSlash_some_eq _ pre post hsp
  · intro h
    have hsp : splitAtSlash (lowerChars value) =
        some ((lowercaseCode b).toList, (lowercaseCode q).toList) := by
      rw [h]
      exact splitAtSlash_append _ _ (lowercaseCode_no_slash b)
    rw [symbolTryFrom_of_split value _ _ hsp, exceptBindPair]
    exact ⟨(assetTryFrom_ok_iff (lowercaseCode b) b).mpr rfl,
           (assetTryFrom_ok_iff (lowercaseCode q) q).mpr rfl⟩
  · intro h
    exact symbolTryFrom_of_no_split value (splitAtSlash_none_of _ h)
  · intro e hs h
    obtain ⟨pre, post, hsp⟩ := splitAtSlash_isSome _ hs
    rw [symbolTryFrom_of_split value pre post hsp] at h
    rcases exceptBindPair_error _ _ _ h with h1 | h1
    · exact ⟨String.mk pre, assetTryFrom_error_shape _ _ h1⟩
    · exact ⟨String.mk post, assetTryFrom_error_shape _ _ h1⟩

/-- C9 witness: the characterization applied to `"eth/btC"` (the repo's own
test input), to the slashless `"ethbtc"`, and to `"zz/btc"`. -/
theorem claim9_witness :
    Symbol.tryFrom "eth/btC" = Except.ok ⟨.ETH, .BTC⟩ ∧
    ('/' ∉ lowerChars "ethbtc") ∧
    Symbol.tryFrom "ethbtc" =
      Except.error (.InvalidPair (String.mk (lowerChars "ethbtc"))) ∧
    (∃ t, WebsocketError.InvalidAsset "zz" = WebsocketError.InvalidAsset t) :=
  ⟨(claim9_symbol_parse "eth/btC" .ETH .BTC).1.mpr (by decide),
   by decide,
   (claim9_symbol_parse "ethbtc" .ETH .BTC).2.1 (by decide),
   (claim9_symbol_parse "zz/btc" .ETH .BTC).2.2 (.InvalidAsset "zz")
     (by decide) rfl⟩

theorem convLevel_spec (tag : String) (parse : String → Option ℚ)
    (entry : List String) (h : 2 ≤ entry.length) :
    (∃ p q, convLevel tag parse entry = .ok ⟨tag, p, q⟩) ∨
    (∃ t, convLevel tag parse entry = .err (.ParseError t)) := by
  match entry, h with
  | e0 :: e1 :: rest, _ =>
    simp only [convLevel, List.getElem?_cons_zero, List.getElem?_cons_succ]
    cases parse e0 with
    | none => exact Or.inr ⟨e0, rfl⟩
    | some price =>
      cases parse e1 with
      | none => exact Or.inr ⟨e1, rfl⟩
      | some quantity => exact Or.inl ⟨price, quantity, rfl⟩

theorem convLevels_spec (tag : String) (parse : String → Option ℚ)
    (entries : List (List String)) (h : ∀ e ∈ entries, 2 ≤ e.length) :
    (∃ ls, convLevels tag parse entries = .ok ls ∧
       ls.length = entries.length ∧ ∀ l ∈ ls, l.exchange = tag) ∨
    (∃ t, convLevels tag parse entries = .err (.ParseError t)) := by
  induction entries with
  | nil => exact Or.inl ⟨[], rfl, rfl, by simp⟩
  | cons e rest ih =>
    rcases convLevel_spec tag parse e (h e (List.mem_cons_self _ _)) with
      ⟨p, q, hL⟩ | ⟨t, hL⟩
    · rcases ih (fun e' he' => h e' (List.mem_cons_of_mem _ he')) with
        ⟨ls, hls, hlen, htag⟩ | ⟨t, hls⟩
      · refine Or.inl ⟨⟨tag, p, q⟩ :: ls, ?_, by simp [hlen], ?_⟩
        · simp [convLevels, hL, hls, ConvResult.bind]
        · intro l hl
          rcases List.mem_cons.mp hl with h1 | h1
          · rw [h1]
          · exact htag l h1
      · exact Or.inr ⟨t, by simp [convLevels, hL, hls, ConvResult.bind]⟩
    · exact Or.inr ⟨t, by simp [convLevels, hL, ConvResult.bind]⟩

theorem rawTryIntoSummary_spec (tag : String) (parse : String → Option ℚ)
    (bids asks : List (List String))
    (hb : ∀ e ∈ bids, 2 ≤ e.length) (ha : ∀ e ∈ asks, 2 ≤ e.length) :
    (∃ s, rawTryIntoSummary tag parse bids asks = .ok s ∧
       s.bids.length = bids.length ∧ s.asks.length = asks.length ∧
       (∀ l ∈ s.bids, l.exchange = tag) ∧ (∀ l ∈ s.asks, l.exchange = tag)) ∨
    (∃ t, rawTryIntoSummary tag parse bids asks = .err (.ParseError t)) := by
  rcases convLevels_spec tag parse bids hb with
    ⟨bs, hbs, hblen, hbtag⟩ | ⟨t, hbs⟩
  · rcases convLevels_spec tag parse asks ha with
      ⟨aks, haks, halen, hatag⟩ | ⟨t, haks⟩
    · exact Or.inl ⟨⟨bs, aks⟩,
        by simp [rawTryIntoSummary, hbs, haks, ConvResult.bind],
        hblen, halen, hbtag, hatag⟩
    · exact Or.inr ⟨t,
        by simp [rawTryIntoSummary, hbs, haks, ConvResult.bind]⟩
  · exact Or.inr ⟨t, by simp [rawTryIntoSummary, hbs, ConvResult.bind]⟩

/-- C10: under the precondition that every raw entry has at least two
elements, both adapter decoders never reach the out-of-bounds branch of
their unchecked `entry[0]`/`entry[1]` indexing: they return either `Ok` of
a Summary with one Level per entry carrying the fixed exchange tag, or
`Err(ParseError ..)` when some price or quantity string fails numeric
parsing.  The numeric parser is universally quantified, since
`str::parse::<f64>` is external to the repository. -/
theorem claim10_adapters_total (parse : String → Option ℚ)
    (ds : DepthSnapshot) (bd : BitstampData)
    (h1 : ∀ e ∈ ds.bids ++ ds.asks, 2 ≤ e.length)
    (h2 : ∀ e ∈ bd.bids ++ bd.asks, 2 ≤ e.length) :
    (ds.tryIntoSummary parse ≠ .indexPanic ∧
      ((∃ s, ds.tryIntoSummary parse = .ok s ∧
          s.bids.length = ds.bids.length ∧ s.asks.length = ds.asks.length ∧
          (∀ l ∈ s.bids, l.exchange = "binance") ∧
          (∀ l ∈ s.asks, l.exchange = "binance")) ∨
        (∃ t, ds.tryIntoSummary parse = .err (.ParseError t)))) ∧
    (bd.tryIntoSummary parse ≠ .indexPanic ∧
      ((∃ s, bd.tryIntoSummary parse = .ok s ∧
          s.bids.length = bd.bids.length ∧ s.asks.length = bd.asks.length ∧
          (∀ l ∈ s.bids, l.exchange = "bitstamp") ∧
          (∀ l ∈ s.asks, l.exchange = "bitstamp")) ∨
        (∃ t, bd.tryIntoSummary parse = .err (.ParseError t)))) := by
  have hd := rawTryIntoSummary_spec "binance" parse ds.bids ds.asks
    (fun e he => h1 e (List.mem_append_left _ he))
    (fun e he => h1 e (List.mem_append_right _ he))
  have hbd := rawTryIntoSummary_spec "bitstamp" parse bd.bids bd.asks
    (fun e he => h2 e (List.mem_append_left _ he))
    (fun e he => h2 e (List.mem_append_right _ he))
  constructor
  · refine ⟨?_, hd⟩
    rcases hd with ⟨s, hs, _⟩ | ⟨t, ht⟩
    · rw [DepthSnapshot.tryIntoSummary, hs]
      exact fun hf => ConvResult.noConfusion hf
    · rw [DepthSnapshot.tryIntoSummary, ht]
      exact fun hf => ConvResult.noConfusion hf
  · refine ⟨?_, hbd⟩
    rcases hbd with ⟨s, hs, _⟩ | ⟨t, ht⟩
    · rw [BitstampData.tryIntoSummary, hs]
      exact fun hf => ConvResult.noConfusion hf
    · rw [BitstampData.tryIntoSummary, ht]
      exact fun hf => ConvResult.noConfusion hf

/-- C10 witness: the totality theorem applied to concrete two-element
frames and a concrete numeric parser. -/
theorem claim10_witness :
    (DepthSnapshot.mk [["1", "2"]] []).tryIntoSummary
        (fun t => if t = "1" then some 1 else none) ≠ ConvResult.indexPanic ∧
    (BitstampData.mk [] [["3", "4"]]).tryIntoSummary
        (fun t => if t = "1" then some 1 else none) ≠ ConvResult.indexPanic :=
  ⟨(claim10_adapters_total (fun t => if t = "1" then some 1 else none)
      ⟨[["1", "2"]], []⟩ ⟨[], [["3", "4"]]⟩ (by decide) (by decide)).1.1,
   (claim10_adapters_total (fun t => if t = "1" then some 1 else none)
      ⟨[["1", "2"]], []⟩ ⟨[], [["3", "4"]]⟩ (by decide) (by decide)).2.1⟩

end Mbooks
